import Mathlib

/-!
Shallow embedding of the confspec configuration library: the interpolation
engine (src/confspec/interpolate.py), the deep merge (src/confspec/loader.py,
function _merge_dicts) and the environment-file naming helper
(src/confspec/helpers.py, function env_file_name).

The interpolation pattern from the source is
  (?P<escaped>\$)?(?P<raw>\$\x7b(?P<name>[a-zA-Z_]\w*)(?:\[(?P<delim>[^]\x7d]+)])?(?P<strip>~)?(?P<default>:[^\x7d]*|\?)?\x7d)
It is embedded below as a deterministic functional matcher over lists of
characters (the pattern has no true ambiguity: every optional piece either
matches maximally or not at all, and failure of a later literal cannot be
repaired by a shorter earlier match, because each character class excludes the
characters that follow it).  Character classes are modelled over the ASCII
range, matching the regex character ranges literally.
-/

namespace Confspec

/-- Environment snapshot: process-wide map from variable name to value,
modelling os.environ / os.getenv. -/
abbrev Env := String → Option String

/-- Configuration tree: the generic mapping/sequence/scalar value produced by
the format parsers and consumed by interpolation and merge. -/
inductive Value where
  | str (s : String)
  | num (n : Int)
  | bool (b : Bool)
  | null
  | list (xs : List Value)
  | dict (kvs : List (String × Value))

/-- Errors raised by the interpolation engine: KeyError (lookup failure) and
SyntaxError (disallowed expression placement), each carrying its message. -/
inductive InterpError where
  | keyErr (msg : String)
  | synErr (msg : String)

/-- First character of a variable name: the regex class [a-zA-Z_]. -/
def isNameStartChar (c : Char) : Bool := c.isAlpha || c == '_'

/-- Continuation character of a variable name: the regex class \w. -/
def isWordChar (c : Char) : Bool := c.isAlphanum || c == '_'

/-- Delimiter character: the regex class [^]\x7d] (anything except a closing
square bracket or a closing brace). -/
def isDelimChar (c : Char) : Bool := !(c == ']') && !(c == '\x7d')

/-- Character allowed in a default clause: the regex class [^\x7d]. -/
def notBrace (c : Char) : Bool := !(c == '\x7d')

/-- The named groups of a successful pattern match.  The group called
"default" in the source is called dflt here; it stores the raw group text,
i.e. a clause ":text" including its leading colon, or the single "?". -/
structure MatchGroups where
  escaped : Bool
  name : List Char
  delim : Option (List Char)
  strip : Bool
  dflt : Option (List Char)

/-- Match the optional delimiter clause (?:\[(?P<delim>[^]\x7d]+)])? at the
head of l.  Returns the delim group and the rest; on failure of the optional
group the input is returned unchanged. -/
def matchDelim (l : List Char) : Option (List Char) × List Char :=
  match l with
  | '[' :: ds =>
    match ds.dropWhile isDelimChar with
    | ']' :: r =>
      let dchars := ds.takeWhile isDelimChar
      if dchars.isEmpty then (none, l) else (some dchars, r)
    | _ => (none, l)
  | _ => (none, l)

/-- Match the optional trim flag (?P<strip>~)? at the head of l. -/
def matchStrip (l : List Char) : Bool × List Char :=
  match l with
  | '~' :: r => (true, r)
  | _ => (false, l)

/-- Match the optional default clause (?P<default>:[^\x7d]*|\?)? at the head
of l. -/
def matchDefault (l : List Char) : Option (List Char) × List Char :=
  match l with
  | ':' :: r => (some (':' :: r.takeWhile notBrace), r.dropWhile notBrace)
  | '?' :: r => (some ['?'], r)
  | _ => (none, l)

/-- Match the part of the expression that follows the variable name: the
optional delimiter clause, the optional trim flag, the optional default
clause and the closing brace. -/
def matchAfterName (l : List Char) :
    Option (Option (List Char) × Bool × Option (List Char) × List Char) :=
  let p1 := matchDelim l
  let p2 := matchStrip p1.2
  let p3 := matchDefault p2.2
  match p3.2 with
  | '\x7d' :: r5 => some (p1.1, p2.1, p3.1, r5)
  | _ => none

/-- Match the raw group (?P<raw>\$\x7bname...\x7d) at the head of l, with
escaped set to false.  Returns the groups and the unconsumed rest. -/
def matchRawAt (l : List Char) : Option (MatchGroups × List Char) :=
  match l with
  | '$' :: '\x7b' :: c :: rest =>
    if isNameStartChar c then
      match matchAfterName (rest.dropWhile isWordChar) with
      | some (delim, strip, dflt, r5) =>
        some ({ escaped := false, name := c :: rest.takeWhile isWordChar,
                delim := delim, strip := strip, dflt := dflt }, r5)
      | none => none
    else none
  | _ => none

/-- Match the full pattern (?P<escaped>\$)?(?P<raw>...) at the head of l: try
the optional escape dollar (which succeeds exactly when it is followed by a
complete raw group), then fall back to the raw group alone. -/
def matchFrom (l : List Char) : Option (MatchGroups × List Char) :=
  match l with
  | '$' :: '$' :: '\x7b' :: rest =>
    match matchRawAt ('$' :: '\x7b' :: rest) with
    | some (g, r) => some ({ g with escaped := true }, r)
    | none => none
  | _ => matchRawAt l

/-- Text of the delimiter clause as it appears in the source string. -/
def delimPart : Option (List Char) → List Char
  | some d => '[' :: (d ++ [']'])
  | none => []

/-- Text of the trim flag as it appears in the source string. -/
def stripPart (b : Bool) : List Char := if b then ['~'] else []

/-- Text of the default clause as it appears in the source string. -/
def dfltPart : Option (List Char) → List Char
  | some d => d
  | none => []

/-- The raw matched text reassembled from the groups: since the matcher
consumes exactly these characters, this is the "raw" group of the match. -/
def rawTextOf (name : List Char) (delim : Option (List Char)) (strip : Bool)
    (dflt : Option (List Char)) : List Char :=
  '$' :: '\x7b' :: (name ++ (delimPart delim ++ (stripPart strip ++ (dfltPart dflt ++ ['\x7d']))))

/-- The raw group of a match. -/
def MatchGroups.rawText (g : MatchGroups) : List Char :=
  rawTextOf g.name g.delim g.strip g.dflt

/-- The text of an interpolation expression built from its components. -/
def exprText (name : List Char) (delim : Option (List Char)) (strip : Bool)
    (dflt : Option (List Char)) : List Char :=
  rawTextOf name delim strip dflt

/-- Whitespace as understood by Python str.strip(). -/
def isPySpace (c : Char) : Bool :=
  c == ' ' || c == '\t' || c == '\n' || c == '\r' || c == '\x0b' || c == '\x0c'

/-- Python str.strip(): remove leading and trailing whitespace. -/
def pyStrip (l : List Char) : List Char :=
  ((l.dropWhile isPySpace).reverse.dropWhile isPySpace).reverse

/-- Apply the trim flag to a resolved value. -/
def applyStrip (strip : Bool) (l : List Char) : List Char :=
  if strip then pyStrip l else l

/-- The KeyError message raised for an unset variable with no default. -/
def keyErrMsg (name : List Char) : String :=
  "environment variable '" ++ String.mk name ++ "' is not set and no default was specified"

/-- The replacement function _replace_fn: evaluate one matched expression
during the substring-replace pass. -/
def replaceFn (env : Env) (g : MatchGroups) : Except InterpError (List Char) :=
  if g.escaped then .ok g.rawText
  else if g.delim.isSome then
    .error (.synErr ("list expansion is not supported within strings"))
  else
    match env (String.mk g.name) with
    | some v => .ok (applyStrip g.strip v.toList)
    | none =>
      match g.dflt with
      | none => .error (.keyErr (keyErrMsg g.name))
      | some d =>
        if d = ['?'] then
          .error (.synErr ("None-as-default ('?') flag is not supported within strings"))
        else .ok (applyStrip g.strip (d.drop 1))

/-- Fuel-indexed scan implementing re.sub with _replace_fn: walk the string
left to right, replacing each leftmost non-overlapping match and copying
every other character.  One unit of fuel is spent per step; since every step
consumes at least one character, fuel equal to the length of the input is
always sufficient. -/
def subGo (env : Env) : Nat → List Char → Except InterpError (List Char)
  | 0, l => .ok l
  | _ + 1, [] => .ok []
  | fuel + 1, c :: cs =>
    match matchFrom (c :: cs) with
    | some (g, r) => do
      let rep ← replaceFn env g
      let tail ← subGo env fuel r
      pure (rep ++ tail)
    | none => do
      let tail ← subGo env fuel cs
      pure (c :: tail)

/-- The substring-replace pass INTERPOLATION_PATTERN.sub(_replace_fn, value). -/
def subAux (env : Env) (l : List Char) : Except InterpError (List Char) :=
  subGo env l.length l

/-- INTERPOLATION_PATTERN.fullmatch: a match at position zero that consumes
the whole string. -/
def fullmatch (l : List Char) : Option MatchGroups :=
  match matchFrom l with
  | some (g, []) => some g
  | _ => none

/-- Find the first occurrence of sep in the input, returning the characters
before it and the characters after it. -/
def splitOnce (sep : List Char) : List Char → Option (List Char × List Char)
  | [] => none
  | c :: cs =>
    if sep.isPrefixOf (c :: cs) then some ([], (c :: cs).drop sep.length)
    else
      match splitOnce sep cs with
      | some (a, b) => some (c :: a, b)
      | none => none

/-- Fuel-indexed worker for Python str.split with a non-empty separator. -/
def pySplitGo (sep : List Char) : Nat → List Char → List (List Char)
  | 0, s => [s]
  | fuel + 1, s =>
    match splitOnce sep s with
    | none => [s]
    | some (a, b) => a :: pySplitGo sep fuel b

/-- Python str.split(sep) for a non-empty separator: split on every literal
non-overlapping occurrence of sep, keeping empty pieces. -/
def pySplit (sep : List Char) (s : List Char) : List (List Char) :=
  pySplitGo sep s.length s

/-- The function try_interpolate: full-match handling (escape, null-default,
list split) followed by the general substring-replace pass. -/
def try_interpolate (env : Env) (value : String) : Except InterpError Value :=
  match fullmatch value.toList with
  | some g =>
    if g.escaped then (subAux env value.toList).map (fun l => .str (String.mk l))
    else if g.dflt = some ['?'] ∧ env (String.mk g.name) = none then .ok .null
    else
      match g.delim with
      | some d =>
        let raw :=
          match env (String.mk g.name) with
          | some v => v.toList
          | none => (dfltPart g.dflt).drop 1
        .ok (.list ((pySplit d raw).map fun e => .str (String.mk (applyStrip g.strip e))))
      | none => (subAux env value.toList).map (fun l => .str (String.mk l))
  | none => (subAux env value.toList).map (fun l => .str (String.mk l))

/-- InterpolationVisitor.visit_value: strings are interpolated, any other
value passes through unchanged. -/
def visitValue (env : Env) (v : Value) : Except InterpError Value :=
  match v with
  | .str s => try_interpolate env s
  | v => .ok v

mutual

/-- InterpolationVisitor.visit: dispatch on the node kind. -/
def visit (env : Env) : Value → Except InterpError Value
  | .list xs => do pure (.list (← visitList env xs))
  | .dict kvs => do pure (.dict (← visitDict env kvs))
  | v => visitValue env v

/-- InterpolationVisitor.visit_list: visit every element in order. -/
def visitList (env : Env) : List Value → Except InterpError (List Value)
  | [] => pure []
  | x :: xs => do
    let y ← visit env x
    let ys ← visitList env xs
    pure (y :: ys)

/-- InterpolationVisitor.visit_dict: visit every value in order, keeping keys. -/
def visitDict (env : Env) : List (String × Value) → Except InterpError (List (String × Value))
  | [] => pure []
  | (k, v) :: kvs => do
    let v' ← visit env v
    let kvs' ← visitDict env kvs
    pure ((k, v') :: kvs')

end

/-- Python dict lookup on an insertion-ordered association list. -/
def dictGet : List (String × Value) → String → Option Value
  | [], _ => none
  | (k', v) :: rest, k => if k' = k then some v else dictGet rest k

/-- Python dict assignment d[k] = v: update the entry in place if the key is
present, append it otherwise. -/
def dictSet : List (String × Value) → String → Value → List (String × Value)
  | [], k, v => [(k, v)]
  | (k', v') :: rest, k, v => if k' = k then (k, v) :: rest else (k', v') :: dictSet rest k v

/-- The function _merge_dicts: for every key of the overlay d2 in order, if
the key maps to a mapping in both trees recurse, otherwise overwrite. -/
def mergeDicts : List (String × Value) → List (String × Value) → List (String × Value)
  | d1, [] => d1
  | d1, (k, Value.dict s2) :: rest =>
    (match dictGet d1 k with
     | some (Value.dict s1) => mergeDicts (dictSet d1 k (.dict (mergeDicts s1 s2))) rest
     | _ => mergeDicts (dictSet d1 k (.dict s2)) rest)
  | d1, (k, v2) :: rest => mergeDicts (dictSet d1 k v2) rest
termination_by _ d2 => sizeOf d2
decreasing_by all_goals (simp_wf <;> omega)

/-- One iteration of the _merge_dicts loop body for key k with overlay value
v2. -/
def mergeStep (d1 : List (String × Value)) (k : String) (v2 : Value) :
    List (String × Value) :=
  match dictGet d1 k, v2 with
  | some (Value.dict s1), Value.dict s2 => dictSet d1 k (.dict (mergeDicts s1 s2))
  | _, _ => dictSet d1 k v2

/-- pathlib.PurePath.name for a plain slash-separated path: the part after
the last slash. -/
def pathName (p : String) : String :=
  String.mk ((p.toList.reverse.takeWhile (fun c => !(c == '/'))).reverse)

/-- Whether a file name ends with a dot. -/
def endsWithDot (l : List Char) : Bool :=
  match l.reverse with
  | '.' :: _ => true
  | _ => false

/-- pathlib.PurePath.suffixes computed on the file name: empty for a name
ending in a dot, otherwise the dot-prefixed pieces after the first segment of
the name stripped of its leading dots. -/
def pySuffixes (name : List Char) : List (List Char) :=
  if endsWithDot name then []
  else ((pySplit ['.'] (name.dropWhile (fun c => c == '.'))).tail).map (fun s => '.' :: s)

/-- Python str.find('.'): index of the first dot, or -1. -/
def pyFindDot (l : List Char) : Int :=
  match l.findIdx? (fun c => c == '.') with
  | some i => (i : Int)
  | none => -1

/-- Python slice l[:k] with a possibly negative bound. -/
def pySliceTo (l : List Char) (k : Int) : List Char :=
  if k < 0 then l.take (l.length - (-k).toNat) else l.take k.toNat

/-- The function env_file_name: base = name[: name.find(".") or len(name)],
then base + "." + env + "".join(suffixes). -/
def env_file_name (p : String) (env : String) : String :=
  let name := (pathName p).toList
  let cut : Int := if pyFindDot name = 0 then (name.length : Int) else pyFindDot name
  String.mk (pySliceTo name cut ++ '.' :: env.toList ++ (pySuffixes name).flatten)

/-- A leaf evaluation result: interpolating a string produces a string, a
sequence of strings, or null. -/
def IsLeafResult (v : Value) : Prop :=
  (∃ s, v = .str s) ∨ (∃ xs, v = .list xs ∧ ∀ x ∈ xs, ∃ s, x = .str s) ∨ v = .null

mutual

/-- Shape preservation between an input tree and its interpolated result:
containers keep their structure and keys, non-string leaves are unchanged,
and string leaves become leaf evaluation results. -/
inductive ShapeOk : Value → Value → Prop
  | str (s : String) (v : Value) : IsLeafResult v → ShapeOk (.str s) v
  | num (n : Int) : ShapeOk (.num n) (.num n)
  | bool (b : Bool) : ShapeOk (.bool b) (.bool b)
  | null : ShapeOk .null .null
  | list {xs ys : List Value} : ShapeOkList xs ys → ShapeOk (.list xs) (.list ys)
  | dict {kvs kvs' : List (String × Value)} : ShapeOkDict kvs kvs' →
      ShapeOk (.dict kvs) (.dict kvs')

/-- Pointwise shape preservation for sequences. -/
inductive ShapeOkList : List Value → List Value → Prop
  | nil : ShapeOkList [] []
  | cons {x y : Value} {xs ys : List Value} : ShapeOk x y → ShapeOkList xs ys →
      ShapeOkList (x :: xs) (y :: ys)

/-- Pointwise shape and key preservation for mappings. -/
inductive ShapeOkDict : List (String × Value) → List (String × Value) → Prop
  | nil : ShapeOkDict [] []
  | cons {k : String} {v v' : Value} {kvs kvs' : List (String × Value)} :
      ShapeOk v v' → ShapeOkDict kvs kvs' → ShapeOkDict ((k, v) :: kvs) ((k, v') :: kvs')

end

/-- A syntactically valid variable name for the pattern: [a-zA-Z_]\w*. -/
def ValidName (n : List Char) : Prop :=
  ∃ c cs, n = c :: cs ∧ isNameStartChar c = true ∧ ∀ x ∈ cs, isWordChar x = true

/-- A syntactically valid delimiter for the pattern: [^]\x7d]+. -/
def ValidDelim (d : List Char) : Prop :=
  d ≠ [] ∧ ∀ x ∈ d, isDelimChar x = true

/-- A syntactically valid optional delimiter clause. -/
def ValidDelimOpt (o : Option (List Char)) : Prop :=
  ∀ d, o = some d → ValidDelim d

/-- A syntactically valid optional default group restricted to the colon
form (no null-default flag). -/
def ValidColonDflt (o : Option (List Char)) : Prop :=
  o = none ∨ ∃ t, o = some (':' :: t) ∧ ∀ x ∈ t, notBrace x = true

/-- A syntactically valid optional default group: absent, the null-default
flag, or a colon clause. -/
def ValidDflt (o : Option (List Char)) : Prop :=
  o = none ∨ o = some ['?'] ∨ ∃ t, o = some (':' :: t) ∧ ∀ x ∈ t, notBrace x = true

/-- A string fragment with no dollar sign, hence inert for the pattern. -/
def noDollar (l : List Char) : Bool :=
  l.all (fun c => !(c == '$'))

/-- Whether a string contains the two-character expression opener. -/
def hasDollarBrace : List Char → Bool
  | '$' :: '\x7b' :: _ => true
  | _ :: rest => hasDollarBrace rest
  | [] => false

/-! ### Lemmas about the expression matcher -/

theorem dropWhile_length_le (p : Char → Bool) (l : List Char) :
    (l.dropWhile p).length ≤ l.length := by
  induction l with
  | nil => simp
  | cons c cs ih =>
    rw [List.dropWhile_cons]
    split
    · exact Nat.le_succ_of_le ih
    · simp

theorem matchDelim_bracket (d r : List Char) (hne : d ≠ [])
    (hall : ∀ x ∈ d, isDelimChar x = true) :
    matchDelim ('[' :: (d ++ ']' :: r)) = (some d, r) := by
  have h1 : (d ++ ']' :: r).dropWhile isDelimChar = ']' :: r := by
    rw [List.dropWhile_append_of_pos hall]
    exact List.dropWhile_cons_of_neg (by decide)
  have h2 : (d ++ ']' :: r).takeWhile isDelimChar = d := by
    rw [List.takeWhile_append_of_pos hall, List.takeWhile_cons_of_neg (by decide),
      List.append_nil]
  have e : matchDelim ('[' :: (d ++ ']' :: r)) =
      (match (d ++ ']' :: r).dropWhile isDelimChar with
       | ']' :: r' =>
         if ((d ++ ']' :: r).takeWhile isDelimChar).isEmpty then (none, '[' :: (d ++ ']' :: r))
         else (some ((d ++ ']' :: r).takeWhile isDelimChar), r')
       | _ => (none, '[' :: (d ++ ']' :: r))) := rfl
  rw [e, h1, h2]
  simp [hne]

theorem matchDelim_not_bracket (l : List Char) (h : l.head? ≠ some '[') :
    matchDelim l = (none, l) := by
  match l with
  | [] => rfl
  | c :: r =>
    have hc : c ≠ '[' := by simpa using h
    unfold matchDelim
    split <;> simp_all

theorem matchStrip_tilde (r : List Char) : matchStrip ('~' :: r) = (true, r) := rfl

theorem matchStrip_not_tilde (l : List Char) (h : l.head? ≠ some '~') :
    matchStrip l = (false, l) := by
  match l with
  | [] => rfl
  | c :: r =>
    have hc : c ≠ '~' := by simpa using h
    unfold matchStrip
    split <;> simp_all

theorem matchDefault_colon (t r : List Char) (h : ∀ x ∈ t, notBrace x = true) :
    matchDefault (':' :: (t ++ '\x7d' :: r)) = (some (':' :: t), '\x7d' :: r) := by
  have e : matchDefault (':' :: (t ++ '\x7d' :: r)) =
      (some (':' :: (t ++ '\x7d' :: r).takeWhile notBrace),
        (t ++ '\x7d' :: r).dropWhile notBrace) := rfl
  rw [e, List.takeWhile_append_of_pos h, List.takeWhile_cons_of_neg (by decide),
      List.dropWhile_append_of_pos h, List.dropWhile_cons_of_neg (by decide), List.append_nil]

theorem matchDefault_qmark (r : List Char) : matchDefault ('?' :: r) = (some ['?'], r) := rfl

theorem matchDefault_other (l : List Char) (h1 : l.head? ≠ some ':') (h2 : l.head? ≠ some '?') :
    matchDefault l = (none, l) := by
  match l with
  | [] => rfl
  | c :: r =>
    have hc1 : c ≠ ':' := by simpa using h1
    have hc2 : c ≠ '?' := by simpa using h2
    unfold matchDefault
    split <;> simp_all

theorem afterStrip_shape (dflt : Option (List Char)) (r : List Char) (hdf : ValidDflt dflt) :
    ∃ c0 t0, dfltPart dflt ++ '\x7d' :: r = c0 :: t0 ∧ (c0 = ':' ∨ c0 = '?' ∨ c0 = '\x7d') := by
  rcases hdf with rfl | rfl | ⟨t, rfl, ht⟩
  · exact ⟨'\x7d', r, rfl, by simp⟩
  · exact ⟨'?', '\x7d' :: r, rfl, by simp⟩
  · exact ⟨':', t ++ '\x7d' :: r, rfl, by simp⟩

theorem afterDelim_shape (strip : Bool) (dflt : Option (List Char)) (r : List Char)
    (hdf : ValidDflt dflt) :
    ∃ c0 t0, stripPart strip ++ (dfltPart dflt ++ '\x7d' :: r) = c0 :: t0 ∧
      (c0 = '~' ∨ c0 = ':' ∨ c0 = '?' ∨ c0 = '\x7d') := by
  cases strip with
  | true => exact ⟨'~', dfltPart dflt ++ '\x7d' :: r, rfl, by simp⟩
  | false =>
    obtain ⟨c0, t0, he, hc⟩ := afterStrip_shape dflt r hdf
    exact ⟨c0, t0, by simpa [stripPart] using he, by tauto⟩

theorem matchAfterName_expr (dOpt : Option (List Char)) (strip : Bool)
    (dflt : Option (List Char)) (r : List Char)
    (hd : ValidDelimOpt dOpt) (hdf : ValidDflt dflt) :
    matchAfterName (delimPart dOpt ++ (stripPart strip ++ (dfltPart dflt ++ '\x7d' :: r))) =
      some (dOpt, strip, dflt, r) := by
  have hdelim : matchDelim (delimPart dOpt ++ (stripPart strip ++ (dfltPart dflt ++ '\x7d' :: r))) =
      (dOpt, stripPart strip ++ (dfltPart dflt ++ '\x7d' :: r)) := by
    cases dOpt with
    | none =>
      rw [show delimPart none ++ (stripPart strip ++ (dfltPart dflt ++ '\x7d' :: r)) =
          stripPart strip ++ (dfltPart dflt ++ '\x7d' :: r) from by simp [delimPart]]
      obtain ⟨c0, t0, he, hc⟩ := afterDelim_shape strip dflt r hdf
      apply matchDelim_not_bracket
      rw [he]
      rcases hc with rfl | rfl | rfl | rfl <;> simp
    | some d =>
      obtain ⟨hne, hall⟩ := hd d rfl
      rw [show delimPart (some d) ++ (stripPart strip ++ (dfltPart dflt ++ '\x7d' :: r)) =
          '[' :: (d ++ ']' :: (stripPart strip ++ (dfltPart dflt ++ '\x7d' :: r))) from by
        simp [delimPart]]
      exact matchDelim_bracket d _ hne hall
  have hstrip : matchStrip (stripPart strip ++ (dfltPart dflt ++ '\x7d' :: r)) =
      (strip, dfltPart dflt ++ '\x7d' :: r) := by
    cases strip with
    | true =>
      rw [show stripPart true ++ (dfltPart dflt ++ '\x7d' :: r) =
          '~' :: (dfltPart dflt ++ '\x7d' :: r) from rfl]
      exact matchStrip_tilde _
    | false =>
      rw [show stripPart false ++ (dfltPart dflt ++ '\x7d' :: r) =
          dfltPart dflt ++ '\x7d' :: r from by simp [stripPart]]
      obtain ⟨c0, t0, he, hc⟩ := afterStrip_shape dflt r hdf
      apply matchStrip_not_tilde
      rw [he]
      rcases hc with rfl | rfl | rfl <;> simp
  have hdflt : matchDefault (dfltPart dflt ++ '\x7d' :: r) = (dflt, '\x7d' :: r) := by
    rcases hdf with rfl | rfl | ⟨t, rfl, ht⟩
    · rw [show dfltPart none ++ '\x7d' :: r = '\x7d' :: r from by simp [dfltPart]]
      exact matchDefault_other _ (by simp) (by simp)
    · rw [show dfltPart (some ['?']) ++ '\x7d' :: r = '?' :: '\x7d' :: r from rfl]
      exact matchDefault_qmark _
    · rw [show dfltPart (some (':' :: t)) ++ '\x7d' :: r = ':' :: (t ++ '\x7d' :: r) from rfl]
      exact matchDefault_colon t r ht
  have e : matchAfterName (delimPart dOpt ++ (stripPart strip ++ (dfltPart dflt ++ '\x7d' :: r))) =
      (match (matchDefault (matchStrip (matchDelim
          (delimPart dOpt ++ (stripPart strip ++ (dfltPart dflt ++ '\x7d' :: r)))).2).2).2 with
       | '\x7d' :: r5 =>
         some ((matchDelim
             (delimPart dOpt ++ (stripPart strip ++ (dfltPart dflt ++ '\x7d' :: r)))).1,
           (matchStrip (matchDelim
             (delimPart dOpt ++ (stripPart strip ++ (dfltPart dflt ++ '\x7d' :: r)))).2).1,
           (matchDefault (matchStrip (matchDelim
             (delimPart dOpt ++ (stripPart strip ++ (dfltPart dflt ++ '\x7d' :: r)))).2).2).1, r5)
       | _ => none) := rfl
  rw [e, hdelim]
  simp only
  rw [hstrip]
  simp only
  rw [hdflt]
  simp

theorem afterName_shape (dOpt : Option (List Char)) (strip : Bool) (dflt : Option (List Char))
    (r : List Char) (hdf : ValidDflt dflt) :
    ∃ c0 t0, delimPart dOpt ++ (stripPart strip ++ (dfltPart dflt ++ '\x7d' :: r)) = c0 :: t0 ∧
      isWordChar c0 = false := by
  cases dOpt with
  | some d =>
    exact ⟨'[', (d ++ [']']) ++ (stripPart strip ++ (dfltPart dflt ++ '\x7d' :: r)), rfl, by decide⟩
  | none =>
    obtain ⟨c0, t0, he, hc⟩ := afterDelim_shape strip dflt r hdf
    refine ⟨c0, t0, by simpa [delimPart] using he, ?_⟩
    rcases hc with rfl | rfl | rfl | rfl <;> decide

theorem matchRawAt_expr (name : List Char) (dOpt : Option (List Char)) (strip : Bool)
    (dflt : Option (List Char)) (r : List Char)
    (hn : ValidName name) (hd : ValidDelimOpt dOpt) (hdf : ValidDflt dflt) :
    matchRawAt (exprText name dOpt strip dflt ++ r) =
      some ({ escaped := false, name := name, delim := dOpt, strip := strip, dflt := dflt }, r) := by
  obtain ⟨c, cs, rfl, hc, hcs⟩ := hn
  obtain ⟨c0, t0, he, hc0⟩ := afterName_shape dOpt strip dflt r hdf
  have hshape : exprText (c :: cs) dOpt strip dflt ++ r =
      '$' :: '\x7b' :: c ::
        (cs ++ (delimPart dOpt ++ (stripPart strip ++ (dfltPart dflt ++ '\x7d' :: r)))) := by
    simp [exprText, rawTextOf]
  have htake : (cs ++ (delimPart dOpt ++ (stripPart strip ++ (dfltPart dflt ++ '\x7d' :: r)))).takeWhile
      isWordChar = cs := by
    rw [he, List.takeWhile_append_of_pos hcs, List.takeWhile_cons_of_neg (by simp [hc0]),
      List.append_nil]
  have hdrop : (cs ++ (delimPart dOpt ++ (stripPart strip ++ (dfltPart dflt ++ '\x7d' :: r)))).dropWhile
      isWordChar = delimPart dOpt ++ (stripPart strip ++ (dfltPart dflt ++ '\x7d' :: r)) := by
    rw [he, List.dropWhile_append_of_pos hcs, List.dropWhile_cons_of_neg (by simp [hc0])]
  have e : matchRawAt ('$' :: '\x7b' :: c ::
      (cs ++ (delimPart dOpt ++ (stripPart strip ++ (dfltPart dflt ++ '\x7d' :: r))))) =
      (if isNameStartChar c then
        match matchAfterName ((cs ++ (delimPart dOpt ++ (stripPart strip ++
            (dfltPart dflt ++ '\x7d' :: r)))).dropWhile isWordChar) with
        | some (delim, strip', dflt', r5) =>
          some ({ escaped := false,
                  name := c :: (cs ++ (delimPart dOpt ++ (stripPart strip ++
                    (dfltPart dflt ++ '\x7d' :: r)))).takeWhile isWordChar,
                  delim := delim, strip := strip', dflt := dflt' }, r5)
        | none => none
       else none) := rfl
  rw [hshape, e, hdrop, htake, matchAfterName_expr dOpt strip dflt r hd hdf, if_pos hc]

theorem matchFrom_expr (name : List Char) (dOpt : Option (List Char)) (strip : Bool)
    (dflt : Option (List Char)) (r : List Char)
    (hn : ValidName name) (hd : ValidDelimOpt dOpt) (hdf : ValidDflt dflt) :
    matchFrom (exprText name dOpt strip dflt ++ r) =
      some ({ escaped := false, name := name, delim := dOpt, strip := strip, dflt := dflt }, r) := by
  have hshape : exprText name dOpt strip dflt ++ r =
      '$' :: '\x7b' :: ((name ++ (delimPart dOpt ++ (stripPart strip ++
        (dfltPart dflt ++ ['\x7d'])))) ++ r) := by
    simp [exprText, rawTextOf]
  have e : matchFrom ('$' :: '\x7b' :: ((name ++ (delimPart dOpt ++ (stripPart strip ++
      (dfltPart dflt ++ ['\x7d'])))) ++ r)) =
      matchRawAt ('$' :: '\x7b' :: ((name ++ (delimPart dOpt ++ (stripPart strip ++
        (dfltPart dflt ++ ['\x7d'])))) ++ r)) := rfl
  rw [hshape, e, ← hshape, matchRawAt_expr name dOpt strip dflt r hn hd hdf]

theorem matchFrom_escText (name : List Char) (dOpt : Option (List Char)) (strip : Bool)
    (dflt : Option (List Char)) (r : List Char)
    (hn : ValidName name) (hd : ValidDelimOpt dOpt) (hdf : ValidDflt dflt) :
    matchFrom ('$' :: (exprText name dOpt strip dflt ++ r)) =
      some ({ escaped := true, name := name, delim := dOpt, strip := strip, dflt := dflt }, r) := by
  have hshape : '$' :: (exprText name dOpt strip dflt ++ r) =
      '$' :: '$' :: '\x7b' :: ((name ++ (delimPart dOpt ++ (stripPart strip ++
        (dfltPart dflt ++ ['\x7d'])))) ++ r) := by
    simp [exprText, rawTextOf]
  have e : matchFrom ('$' :: '$' :: '\x7b' :: ((name ++ (delimPart dOpt ++ (stripPart strip ++
      (dfltPart dflt ++ ['\x7d'])))) ++ r)) =
      (match matchRawAt ('$' :: '\x7b' :: ((name ++ (delimPart dOpt ++ (stripPart strip ++
          (dfltPart dflt ++ ['\x7d'])))) ++ r)) with
       | some (g, r') => some ({ g with escaped := true }, r')
       | none => none) := rfl
  have hraw : matchRawAt ('$' :: '\x7b' :: ((name ++ (delimPart dOpt ++ (stripPart strip ++
      (dfltPart dflt ++ ['\x7d'])))) ++ r)) =
      some ({ escaped := false, name := name, delim := dOpt, strip := strip, dflt := dflt }, r) := by
    have : '$' :: '\x7b' :: ((name ++ (delimPart dOpt ++ (stripPart strip ++
        (dfltPart dflt ++ ['\x7d'])))) ++ r) = exprText name dOpt strip dflt ++ r := by
      simp [exprText, rawTextOf]
    rw [this, matchRawAt_expr name dOpt strip dflt r hn hd hdf]
  rw [hshape, e, hraw]

theorem matchRawAt_ne_dollar (c : Char) (t : List Char) (h : c ≠ '$') :
    matchRawAt (c :: t) = none := by
  unfold matchRawAt
  split <;> simp_all

theorem matchFrom_ne_dollar (c : Char) (t : List Char) (h : c ≠ '$') :
    matchFrom (c :: t) = none := by
  unfold matchFrom
  split
  · simp_all
  · exact matchRawAt_ne_dollar c t h

theorem matchRawAt_no_brace (l : List Char) (h : hasDollarBrace l = false) :
    matchRawAt l = none := by
  unfold matchRawAt
  split
  next c rest =>
    rw [show hasDollarBrace ('$' :: '\x7b' :: c :: rest) = true from rfl] at h
    simp at h
  next => rfl

theorem matchFrom_no_brace (l : List Char) (h : hasDollarBrace l = false) :
    matchFrom l = none := by
  unfold matchFrom
  split
  next rest =>
    rw [show hasDollarBrace ('$' :: '$' :: '\x7b' :: rest) = true from rfl] at h
    simp at h
  next => exact matchRawAt_no_brace _ h

theorem hasDollarBrace_cons_tail (c : Char) (cs : List Char)
    (h : hasDollarBrace (c :: cs) = false) : hasDollarBrace cs = false := by
  unfold hasDollarBrace at h
  split at h <;> simp_all

theorem matchDelim_suffix (l : List Char) : (matchDelim l).2 <:+ l := by
  unfold matchDelim
  split
  next ds =>
    split
    next r' heq =>
      dsimp only
      split
      · exact List.suffix_refl _
      · simp only
        have h1 : (']' :: r') <:+ ds := heq ▸ List.dropWhile_suffix isDelimChar
        exact (List.suffix_cons ']' r').trans (h1.trans (List.suffix_cons '[' ds))
    next => exact List.suffix_refl _
  next => exact List.suffix_refl _

theorem matchStrip_suffix (l : List Char) : (matchStrip l).2 <:+ l := by
  unfold matchStrip
  split
  next r => exact List.suffix_cons '~' r
  next => exact List.suffix_refl _

theorem matchDefault_suffix (l : List Char) : (matchDefault l).2 <:+ l := by
  unfold matchDefault
  split
  next r => exact (List.dropWhile_suffix notBrace).trans (List.suffix_cons ':' r)
  next r => exact List.suffix_cons '?' r
  next => exact List.suffix_refl _

theorem matchAfterName_length (l : List Char) (d : Option (List Char)) (s : Bool)
    (df : Option (List Char)) (r5 : List Char) (h : matchAfterName l = some (d, s, df, r5)) :
    r5.length < l.length := by
  have e : matchAfterName l =
      (match (matchDefault (matchStrip (matchDelim l).2).2).2 with
       | '\x7d' :: r5' =>
         some ((matchDelim l).1, (matchStrip (matchDelim l).2).1,
           (matchDefault (matchStrip (matchDelim l).2).2).1, r5')
       | _ => none) := rfl
  rw [e] at h
  have hsuf : (matchDefault (matchStrip (matchDelim l).2).2).2 <:+ l :=
    (matchDefault_suffix _).trans ((matchStrip_suffix _).trans (matchDelim_suffix _))
  split at h
  next r5' heq =>
    rw [heq] at hsuf
    have hlen := hsuf.length_le
    simp only [Option.some.injEq, Prod.mk.injEq] at h
    obtain ⟨-, -, -, rfl⟩ := h
    simp at hlen
    omega
  next => exact absurd h (by simp)

theorem matchRawAt_length (l : List Char) (g : MatchGroups) (r : List Char)
    (h : matchRawAt l = some (g, r)) : r.length < l.length := by
  unfold matchRawAt at h
  split at h
  next c rest =>
    split at h
    · split at h
      next delim strip dflt r5 heq =>
        have hlt := matchAfterName_length _ _ _ _ _ heq
        have hle := dropWhile_length_le isWordChar rest
        simp only [Option.some.injEq, Prod.mk.injEq] at h
        obtain ⟨-, rfl⟩ := h
        simp only [List.length_cons]
        omega
      next => exact absurd h (by simp)
    · exact absurd h (by simp)
  next => exact absurd h (by simp)

theorem matchFrom_length (l : List Char) (g : MatchGroups) (r : List Char)
    (h : matchFrom l = some (g, r)) : r.length < l.length := by
  unfold matchFrom at h
  split at h
  next rest =>
    split at h
    next g' r' heq =>
      have hlt := matchRawAt_length _ _ _ heq
      simp only [Option.some.injEq, Prod.mk.injEq] at h
      obtain ⟨-, rfl⟩ := h
      simp only [List.length_cons] at hlt ⊢
      omega
    next => exact absurd h (by simp)
  next => exact matchRawAt_length _ _ _ h

/-! ### Lemmas about the substring-replace pass -/

theorem subGo_congr (env : Env) : ∀ (f gmax : Nat) (l : List Char),
    l.length ≤ f → l.length ≤ gmax → subGo env f l = subGo env gmax l := by
  intro f
  induction f with
  | zero =>
    intro gmax l hf _
    have : l = [] := List.eq_nil_of_length_eq_zero (Nat.le_zero.mp hf)
    subst this
    cases gmax <;> rfl
  | succ f ih =>
    intro gmax l hf hg
    match l with
    | [] => cases gmax <;> rfl
    | c :: cs =>
      have hg1 : 1 ≤ gmax := le_trans (by simp) hg
      obtain ⟨g', rfl⟩ : ∃ g', gmax = g' + 1 := ⟨gmax - 1, by omega⟩
      have e1 : subGo env (f + 1) (c :: cs) =
          (match matchFrom (c :: cs) with
           | some (g, r) => do
             let rep ← replaceFn env g
             let tail ← subGo env f r
             pure (rep ++ tail)
           | none => do
             let tail ← subGo env f cs
             pure (c :: tail)) := rfl
      have e2 : subGo env (g' + 1) (c :: cs) =
          (match matchFrom (c :: cs) with
           | some (g, r) => do
             let rep ← replaceFn env g
             let tail ← subGo env g' r
             pure (rep ++ tail)
           | none => do
             let tail ← subGo env g' cs
             pure (c :: tail)) := rfl
      rw [e1, e2]
      cases hm : matchFrom (c :: cs) with
      | some gr =>
        obtain ⟨g, r⟩ := gr
        dsimp only
        have hr := matchFrom_length _ _ _ hm
        simp only [List.length_cons] at hr hf hg
        rw [ih g' r (by omega) (by omega)]
      | none =>
        dsimp only
        simp only [List.length_cons] at hf hg
        rw [ih g' cs (by omega) (by omega)]

theorem subAux_nil (env : Env) : subAux env [] = .ok [] := rfl

theorem subAux_cons_none (env : Env) (c : Char) (cs : List Char)
    (h : matchFrom (c :: cs) = none) :
    subAux env (c :: cs) = (subAux env cs).map (fun tail => c :: tail) := by
  have e : subAux env (c :: cs) =
      (match matchFrom (c :: cs) with
       | some (g, r) => do
         let rep ← replaceFn env g
         let tail ← subGo env cs.length r
         pure (rep ++ tail)
       | none => do
         let tail ← subGo env cs.length cs
         pure (c :: tail)) := rfl
  rw [e, h]
  show (do
    let tail ← subAux env cs
    pure (c :: tail)) = _
  cases subAux env cs <;> rfl

theorem subAux_cons_some (env : Env) (c : Char) (cs : List Char) (g : MatchGroups)
    (r : List Char) (h : matchFrom (c :: cs) = some (g, r)) :
    subAux env (c :: cs) =
      (replaceFn env g).bind (fun rep => (subAux env r).map (fun tail => rep ++ tail)) := by
  have e : subAux env (c :: cs) =
      (match matchFrom (c :: cs) with
       | some (g, r) => do
         let rep ← replaceFn env g
         let tail ← subGo env cs.length r
         pure (rep ++ tail)
       | none => do
         let tail ← subGo env cs.length cs
         pure (c :: tail)) := rfl
  rw [e, h]
  dsimp only
  have hr : r.length ≤ cs.length := by
    have := matchFrom_length _ _ _ h
    simp only [List.length_cons] at this
    omega
  rw [subGo_congr env cs.length r.length r hr le_rfl]
  show (do
    let rep ← replaceFn env g
    let tail ← subAux env r
    pure (rep ++ tail)) = _
  cases replaceFn env g with
  | error e => rfl
  | ok rep => cases subAux env r <;> rfl

theorem subAux_match_head (env : Env) (l : List Char) (g : MatchGroups) (r : List Char)
    (h : matchFrom l = some (g, r)) :
    subAux env l =
      (replaceFn env g).bind (fun rep => (subAux env r).map (fun tail => rep ++ tail)) := by
  match l with
  | [] => exact absurd h (by rw [show matchFrom [] = none from rfl]; simp)
  | c :: cs => exact subAux_cons_some env c cs g r h

theorem noDollar_cons (c : Char) (cs : List Char) (h : noDollar (c :: cs) = true) :
    c ≠ '$' ∧ noDollar cs = true := by
  simp only [noDollar, List.all_cons, Bool.and_eq_true] at h
  obtain ⟨h1, h2⟩ := h
  exact ⟨by simpa using h1, h2⟩

theorem noDollar_no_brace (l : List Char) (h : noDollar l = true) :
    hasDollarBrace l = false := by
  induction l with
  | nil => rfl
  | cons c cs ih =>
    obtain ⟨hc, hcs⟩ := noDollar_cons c cs h
    have htail := ih hcs
    unfold hasDollarBrace
    split <;> simp_all

theorem subAux_no_brace (env : Env) (l : List Char) (h : hasDollarBrace l = false) :
    subAux env l = .ok l := by
  induction l with
  | nil => rfl
  | cons c cs ih =>
    rw [subAux_cons_none env c cs (matchFrom_no_brace _ h),
      ih (hasDollarBrace_cons_tail c cs h)]
    rfl

theorem subAux_noDollar (env : Env) (l : List Char) (h : noDollar l = true) :
    subAux env l = .ok l :=
  subAux_no_brace env l (noDollar_no_brace l h)

theorem subAux_append_left (env : Env) (pre rest : List Char) (h : noDollar pre = true) :
    subAux env (pre ++ rest) = (subAux env rest).map (fun t => pre ++ t) := by
  induction pre with
  | nil =>
    simp only [List.nil_append]
    cases subAux env rest <;> rfl
  | cons c pre ih =>
    obtain ⟨hc, hpre⟩ := noDollar_cons c pre h
    rw [List.cons_append, subAux_cons_none env c (pre ++ rest) (matchFrom_ne_dollar c _ hc),
      ih hpre]
    cases subAux env rest <;> rfl

/-! ### Lemmas about fullmatch -/

theorem fullmatch_none_of_matchFrom (l : List Char) (h : matchFrom l = none) :
    fullmatch l = none := by
  unfold fullmatch
  rw [h]

theorem fullmatch_none_of_rest (l : List Char) (g : MatchGroups) (c : Char) (r : List Char)
    (h : matchFrom l = some (g, c :: r)) : fullmatch l = none := by
  unfold fullmatch
  rw [h]

theorem fullmatch_expr (name : List Char) (dOpt : Option (List Char)) (strip : Bool)
    (dflt : Option (List Char)) (hn : ValidName name) (hd : ValidDelimOpt dOpt)
    (hdf : ValidDflt dflt) :
    fullmatch (exprText name dOpt strip dflt) =
      some { escaped := false, name := name, delim := dOpt, strip := strip, dflt := dflt } := by
  unfold fullmatch
  have h := matchFrom_expr name dOpt strip dflt [] hn hd hdf
  rw [List.append_nil] at h
  rw [h]

theorem fullmatch_escText (name : List Char) (dOpt : Option (List Char)) (strip : Bool)
    (dflt : Option (List Char)) (hn : ValidName name) (hd : ValidDelimOpt dOpt)
    (hdf : ValidDflt dflt) :
    fullmatch ('$' :: exprText name dOpt strip dflt) =
      some { escaped := true, name := name, delim := dOpt, strip := strip, dflt := dflt } := by
  unfold fullmatch
  have h := matchFrom_escText name dOpt strip dflt [] hn hd hdf
  rw [List.append_nil] at h
  rw [h]

/-! ### Lemmas about try_interpolate -/

theorem try_interpolate_sub_of_shape (env : Env) (l : List Char)
    (h : match fullmatch l with
         | none => True
         | some g => g.escaped = true ∨
             (¬(g.dflt = some ['?'] ∧ env (String.mk g.name) = none) ∧ g.delim = none)) :
    try_interpolate env (String.mk l) = (subAux env l).map (fun t => .str (String.mk t)) := by
  unfold try_interpolate
  rw [show (String.mk l).toList = l from rfl]
  cases hf : fullmatch l with
  | none => rfl
  | some g =>
    rw [hf] at h
    rcases h with he | ⟨hq, hdel⟩
    · simp [he]
    · by_cases hesc : g.escaped = true
      · simp [hesc]
      · simp only [Bool.not_eq_true] at hesc
        simp [hesc, hq, hdel]

theorem try_interpolate_null_case (env : Env) (l : List Char) (g : MatchGroups)
    (h : fullmatch l = some g) (hesc : g.escaped = false) (hq : g.dflt = some ['?'])
    (henv : env (String.mk g.name) = none) :
    try_interpolate env (String.mk l) = .ok .null := by
  unfold try_interpolate
  rw [show (String.mk l).toList = l from rfl, h]
  simp [hesc, hq, henv]

theorem try_interpolate_delim_case (env : Env) (l : List Char) (g : MatchGroups)
    (d : List Char) (h : fullmatch l = some g) (hesc : g.escaped = false)
    (hq : ¬(g.dflt = some ['?'] ∧ env (String.mk g.name) = none)) (hdel : g.delim = some d) :
    try_interpolate env (String.mk l) =
      .ok (.list ((pySplit d (match env (String.mk g.name) with
          | some v => v.toList
          | none => (dfltPart g.dflt).drop 1)).map
        fun e => .str (String.mk (applyStrip g.strip e)))) := by
  unfold try_interpolate
  rw [show (String.mk l).toList = l from rfl, h]
  simp [hesc, hq, hdel]

theorem subAux_pre_expr (env : Env) (name : List Char) (dOpt : Option (List Char))
    (strip : Bool) (dflt : Option (List Char)) (pre post : List Char)
    (hn : ValidName name) (hd : ValidDelimOpt dOpt) (hdf : ValidDflt dflt)
    (hpre : noDollar pre = true) :
    subAux env (pre ++ (exprText name dOpt strip dflt ++ post)) =
      ((replaceFn env
          { escaped := false, name := name, delim := dOpt, strip := strip, dflt := dflt }).bind
        (fun rep => (subAux env post).map (fun tail => rep ++ tail))).map
          (fun t => pre ++ t) := by
  rw [subAux_append_left env pre _ hpre,
    subAux_match_head env _ _ post (matchFrom_expr name dOpt strip dflt post hn hd hdf)]

theorem subAux_pre_escExpr (env : Env) (name : List Char) (dOpt : Option (List Char))
    (strip : Bool) (dflt : Option (List Char)) (pre post : List Char)
    (hn : ValidName name) (hd : ValidDelimOpt dOpt) (hdf : ValidDflt dflt)
    (hpre : noDollar pre = true) :
    subAux env (pre ++ ('$' :: (exprText name dOpt strip dflt ++ post))) =
      (subAux env post).map
        (fun tail => pre ++ (exprText name dOpt strip dflt ++ tail)) := by
  rw [subAux_append_left env pre _ hpre,
    subAux_match_head env _ _ post (matchFrom_escText name dOpt strip dflt post hn hd hdf)]
  have hrep : replaceFn env
      { escaped := true, name := name, delim := dOpt, strip := strip, dflt := dflt } =
      .ok (exprText name dOpt strip dflt) := rfl
  rw [hrep]
  cases subAux env post <;> rfl

theorem fullmatch_pre_expr (name : List Char) (dOpt : Option (List Char)) (strip : Bool)
    (dflt : Option (List Char)) (pre post : List Char)
    (hn : ValidName name) (hd : ValidDelimOpt dOpt) (hdf : ValidDflt dflt)
    (hpre : noDollar pre = true) :
    (pre = [] ∧ post = [] ∧
      fullmatch (pre ++ (exprText name dOpt strip dflt ++ post)) =
        some { escaped := false, name := name, delim := dOpt, strip := strip, dflt := dflt }) ∨
    fullmatch (pre ++ (exprText name dOpt strip dflt ++ post)) = none := by
  match pre, post with
  | [], [] =>
    left
    refine ⟨rfl, rfl, ?_⟩
    rw [List.nil_append, List.append_nil]
    exact fullmatch_expr name dOpt strip dflt hn hd hdf
  | [], c' :: post' =>
    right
    rw [List.nil_append]
    exact fullmatch_none_of_rest _ _ c' post' (matchFrom_expr name dOpt strip dflt _ hn hd hdf)
  | c :: pre', post =>
    right
    obtain ⟨hc, -⟩ := noDollar_cons c pre' hpre
    rw [List.cons_append]
    exact fullmatch_none_of_matchFrom _ (matchFrom_ne_dollar c _ hc)

theorem fullmatch_pre_escExpr (name : List Char) (dOpt : Option (List Char)) (strip : Bool)
    (dflt : Option (List Char)) (pre post : List Char)
    (hn : ValidName name) (hd : ValidDelimOpt dOpt) (hdf : ValidDflt dflt)
    (hpre : noDollar pre = true) :
    (pre = [] ∧ post = [] ∧
      fullmatch (pre ++ ('$' :: (exprText name dOpt strip dflt ++ post))) =
        some { escaped := true, name := name, delim := dOpt, strip := strip, dflt := dflt }) ∨
    fullmatch (pre ++ ('$' :: (exprText name dOpt strip dflt ++ post))) = none := by
  match pre, post with
  | [], [] =>
    left
    refine ⟨rfl, rfl, ?_⟩
    rw [List.nil_append, List.append_nil]
    exact fullmatch_escText name dOpt strip dflt hn hd hdf
  | [], c' :: post' =>
    right
    rw [List.nil_append]
    exact fullmatch_none_of_rest _ _ c' post'
      (matchFrom_escText name dOpt strip dflt _ hn hd hdf)
  | c :: pre', post =>
    right
    obtain ⟨hc, -⟩ := noDollar_cons c pre' hpre
    rw [List.cons_append]
    exact fullmatch_none_of_matchFrom _ (matchFrom_ne_dollar c _ hc)

/-- General evaluation of a string made of a dollar-free prefix, an embedded
(non-full-match) null-default expression, and a dollar-free suffix: a syntax
error when the variable is unset, ordinary substitution when it is set. -/
theorem embedded_question_eval (env : Env) (name pre post : List Char)
    (hn : ValidName name) (hpre : noDollar pre = true) (hpost : noDollar post = true)
    (hne : pre ++ post ≠ []) :
    try_interpolate env (String.mk (pre ++ (exprText name none false (some ['?']) ++ post))) =
      (match env (String.mk name) with
       | none => .error (.synErr ("None-as-default ('?') flag is not supported within strings"))
       | some v => .ok (.str (String.mk (pre ++ (v.toList ++ post))))) := by
  have hdf : ValidDflt (some ['?']) := Or.inr (Or.inl rfl)
  have hdo : ValidDelimOpt none := fun d h => nomatch h
  have hfm : fullmatch (pre ++ (exprText name none false (some ['?']) ++ post)) = none := by
    rcases fullmatch_pre_expr name none false (some ['?']) pre post hn hdo hdf hpre with
      ⟨hpre0, hpost0, -⟩ | hf
    · exact absurd (by rw [hpre0, hpost0]; rfl) hne
    · exact hf
  rw [try_interpolate_sub_of_shape env _ (by rw [hfm]; trivial),
    subAux_pre_expr env name none false (some ['?']) pre post hn hdo hdf hpre]
  cases henv : env (String.mk name) with
  | none =>
    have hrep : replaceFn env
        { escaped := false, name := name, delim := none, strip := false, dflt := some ['?'] } =
        .error (.synErr ("None-as-default ('?') flag is not supported within strings")) := by
      unfold replaceFn
      simp [henv]
    rw [hrep]
    rfl
  | some v =>
    have hrep : replaceFn env
        { escaped := false, name := name, delim := none, strip := false, dflt := some ['?'] } =
        .ok v.toList := by
      unfold replaceFn
      simp [henv, applyStrip]
    rw [hrep, subAux_noDollar env post hpost]
    rfl

/-! ### Claim theorems -/

/-- C1 counterexample: the claim says an embedded null-default expression
always fails with a syntax error, regardless of whether the variable is set.
With NAME set to "x", the embedded expression in "a$\x7bNAME?\x7db" is
substituted normally and no error is raised. -/
theorem c1_counterexample :
    try_interpolate (fun n => if n = ("NAME") then some ("x") else none)
      ("a$\x7bNAME?\x7db") = .ok (.str ("axb")) := rfl

/-- C1 (amended): for every string made of a dollar-free prefix, an embedded
non-escaped null-default expression and a dollar-free suffix (at least one of
prefix and suffix non-empty), evaluation fails with the null-default syntax
error exactly when the variable is unset; when it is set, the expression is
substituted by the variable's value. -/
theorem c1_embedded_question (env : Env) (name pre post : List Char)
    (hn : ValidName name) (hpre : noDollar pre = true) (hpost : noDollar post = true)
    (hne : pre ++ post ≠ []) :
    try_interpolate env (String.mk (pre ++ (exprText name none false (some ['?']) ++ post))) =
      (match env (String.mk name) with
       | none => .error (.synErr ("None-as-default ('?') flag is not supported within strings"))
       | some v => .ok (.str (String.mk (pre ++ (v.toList ++ post))))) :=
  embedded_question_eval env name pre post hn hpre hpost hne

/-- C1 witness: instantiating the amended claim with NAME unset yields the
syntax error. -/
theorem c1_witness :
    try_interpolate (fun _ => none) ("a$\x7bNAME?\x7db") =
      .error (.synErr ("None-as-default ('?') flag is not supported within strings")) := by
  have h := c1_embedded_question (fun _ => none) ['N', 'A', 'M', 'E'] ['a'] ['b']
    ⟨'N', ['A', 'M', 'E'], rfl, by decide, by decide⟩ (by decide) (by decide) (by decide)
  rw [show ("a$\x7bNAME?\x7db" : String) =
    String.mk (['a'] ++ (exprText ['N', 'A', 'M', 'E'] none false (some ['?']) ++ ['b']))
    from rfl, h]

/-- C2: a full-match non-escaped null-default expression with an unset
variable evaluates to the null value, delimiter clause or not, trim flag or
not. -/
theorem c2_full_match_null_default (env : Env) (name : List Char)
    (dOpt : Option (List Char)) (strip : Bool) (hn : ValidName name)
    (hd : ValidDelimOpt dOpt) (henv : env (String.mk name) = none) :
    try_interpolate env (String.mk (exprText name dOpt strip (some ['?']))) = .ok .null := by
  have hf := fullmatch_expr name dOpt strip (some ['?']) hn hd (Or.inr (Or.inl rfl))
  exact try_interpolate_null_case env _ _ hf rfl rfl henv

/-- C2 witness: with FOO unset and a delimiter clause present, the result is
the null value, not a list and not a string. -/
theorem c2_witness :
    try_interpolate (fun _ => none) ("$\x7bFOO[,]?\x7d") = .ok .null := by
  have h := c2_full_match_null_default (fun _ => none) ['F', 'O', 'O'] (some [',']) false
    ⟨'F', ['O', 'O'], rfl, by decide, by decide⟩
    (fun d hd => by cases hd; exact ⟨by decide, by decide⟩) rfl
  rw [show ("$\x7bFOO[,]?\x7d" : String) =
    String.mk (exprText ['F', 'O', 'O'] (some [',']) false (some ['?'])) from rfl, h]

/-- C3: a full-match non-escaped expression with a delimiter clause evaluates
to the sequence obtained by splitting the resolved raw value (variable value
if set, else default text after the colon, else empty) on every literal
occurrence of the delimiter, with the trim flag applied to every element. -/
theorem c3_full_match_list_split (env : Env) (name d : List Char) (strip : Bool)
    (dflt : Option (List Char)) (hn : ValidName name) (hd : ValidDelim d)
    (hdf : ValidColonDflt dflt) :
    try_interpolate env (String.mk (exprText name (some d) strip dflt)) =
      .ok (.list ((pySplit d (match env (String.mk name) with
          | some v => v.toList
          | none => (dfltPart dflt).drop 1)).map
        fun e => .str (String.mk (applyStrip strip e)))) := by
  have hdf' : ValidDflt dflt := by
    rcases hdf with rfl | ⟨t, rfl, ht⟩
    · exact Or.inl rfl
    · exact Or.inr (Or.inr ⟨t, rfl, ht⟩)
  have hq : ¬(dflt = some ['?'] ∧ env (String.mk name) = none) := by
    rcases hdf with rfl | ⟨t, rfl, ht⟩ <;> simp
  have hf := fullmatch_expr name (some d) strip dflt hn (fun d' h => by cases h; exact hd) hdf'
  exact try_interpolate_delim_case env _ _ d hf rfl hq rfl

/-- C3 witness: splitting FOO="bar,baz,bork" on the comma delimiter. -/
theorem c3_witness :
    try_interpolate (fun n => if n = ("FOO") then some ("bar,baz,bork") else none)
      ("$\x7bFOO[,]\x7d") =
      .ok (.list [.str ("bar"), .str ("baz"), .str ("bork")]) := by
  have h := c3_full_match_list_split
    (fun n => if n = ("FOO") then some ("bar,baz,bork") else none) ['F', 'O', 'O'] [','] false
    none ⟨'F', ['O', 'O'], rfl, by decide, by decide⟩ ⟨by decide, by decide⟩ (Or.inl rfl)
  rw [show ("$\x7bFOO[,]\x7d" : String) =
    String.mk (exprText ['F', 'O', 'O'] (some [',']) false none) from rfl, h]
  rfl

/-- C5: for every string made of a dollar-free prefix, a non-escaped
expression with no default clause and no null-default flag, and an arbitrary
suffix, evaluation with the variable unset fails with the KeyError naming the
missing variable. -/
theorem c5_unset_lookup_error (env : Env) (name pre post : List Char) (strip : Bool)
    (hn : ValidName name) (hpre : noDollar pre = true)
    (henv : env (String.mk name) = none) :
    try_interpolate env (String.mk (pre ++ (exprText name none strip none ++ post))) =
      .error (.keyErr (keyErrMsg name)) := by
  have hdo : ValidDelimOpt none := fun d h => nomatch h
  have hrep : replaceFn env
      { escaped := false, name := name, delim := none, strip := strip, dflt := none } =
      .error (.keyErr (keyErrMsg name)) := by
    unfold replaceFn
    simp [henv]
  have hsub : subAux env (pre ++ (exprText name none strip none ++ post)) =
      .error (.keyErr (keyErrMsg name)) := by
    rw [subAux_pre_expr env name none strip none pre post hn hdo (Or.inl rfl) hpre, hrep]
    rfl
  have hshape : (match fullmatch (pre ++ (exprText name none strip none ++ post)) with
       | none => True
       | some g => g.escaped = true ∨
           (¬(g.dflt = some ['?'] ∧ env (String.mk g.name) = none) ∧ g.delim = none)) := by
    rcases fullmatch_pre_expr name none strip none pre post hn hdo (Or.inl rfl) hpre with
      ⟨-, -, hf⟩ | hf <;> rw [hf]
    · exact Or.inr ⟨by simp, rfl⟩
    · trivial
  rw [try_interpolate_sub_of_shape env _ hshape, hsub]
  rfl

/-- C5 witness: with FOO unset, evaluating the bare expression fails with the
KeyError whose message names FOO. -/
theorem c5_witness :
    try_interpolate (fun _ => none) ("$\x7bFOO\x7d") =
      .error (.keyErr ("environment variable 'FOO' is not set and no default was specified")) := by
  have h := c5_unset_lookup_error (fun _ => none) ['F', 'O', 'O'] [] [] false
    ⟨'F', ['O', 'O'], rfl, by decide, by decide⟩ rfl rfl
  rw [show ("$\x7bFOO\x7d" : String) =
    String.mk ([] ++ (exprText ['F', 'O', 'O'] none false none ++ [])) from rfl, h]
  rfl

/-- C6: an escaped expression, embedded between dollar-free text, always
evaluates to the raw expression text with the leading escape dollar removed,
never consulting the environment and never producing an error, a list or
null. -/
theorem c6_escaped_literal (env : Env) (name : List Char) (dOpt : Option (List Char))
    (strip : Bool) (dflt : Option (List Char)) (pre post : List Char)
    (hn : ValidName name) (hd : ValidDelimOpt dOpt) (hdf : ValidDflt dflt)
    (hpre : noDollar pre = true) (hpost : noDollar post = true) :
    try_interpolate env (String.mk (pre ++ ('$' :: (exprText name dOpt strip dflt ++ post)))) =
      .ok (.str (String.mk (pre ++ (exprText name dOpt strip dflt ++ post)))) := by
  have hsub : subAux env (pre ++ ('$' :: (exprText name dOpt strip dflt ++ post))) =
      .ok (pre ++ (exprText name dOpt strip dflt ++ post)) := by
    rw [subAux_pre_escExpr env name dOpt strip dflt pre post hn hd hdf hpre,
      subAux_noDollar env post hpost]
    rfl
  have hshape : (match fullmatch (pre ++ ('$' :: (exprText name dOpt strip dflt ++ post))) with
       | none => True
       | some g => g.escaped = true ∨
           (¬(g.dflt = some ['?'] ∧ env (String.mk g.name) = none) ∧ g.delim = none)) := by
    rcases fullmatch_pre_escExpr name dOpt strip dflt pre post hn hd hdf hpre with
      ⟨-, -, hf⟩ | hf <;> rw [hf]
    · exact Or.inl rfl
    · trivial
  rw [try_interpolate_sub_of_shape env _ hshape, hsub]
  rfl

/-- C6 witness: the escape form evaluates to the literal expression text even
though FOO is set. -/
theorem c6_witness :
    try_interpolate (fun n => if n = ("FOO") then some ("bar") else none)
      ("$$\x7bFOO\x7d") = .ok (.str ("$\x7bFOO\x7d")) := by
  have h := c6_escaped_literal (fun n => if n = ("FOO") then some ("bar") else none)
    ['F', 'O', 'O'] none false none [] []
    ⟨'F', ['O', 'O'], rfl, by decide, by decide⟩ (fun d hd => nomatch hd) (Or.inl rfl) rfl rfl
  rw [show ("$$\x7bFOO\x7d" : String) =
    String.mk ([] ++ ('$' :: (exprText ['F', 'O', 'O'] none false none ++ []))) from rfl, h]
  rfl

/-- C7: interpolation is the identity on values with no expression syntax:
strings containing no occurrence of the two-character opener pass through
try_interpolate unchanged, and non-string scalars pass through the visitor
value hook unchanged. -/
theorem c7_no_expression_identity (env : Env) (s : String) (v : Value)
    (hs : hasDollarBrace s.toList = false) (hv : ∀ t, v ≠ .str t) :
    try_interpolate env s = .ok (.str s) ∧ visitValue env v = .ok v := by
  constructor
  · have hfm : fullmatch s.toList = none :=
      fullmatch_none_of_matchFrom _ (matchFrom_no_brace _ hs)
    have hmain := try_interpolate_sub_of_shape env s.toList (by rw [hfm]; trivial)
    rw [show String.mk s.toList = s from rfl] at hmain
    rw [hmain, subAux_no_brace env s.toList hs]
    rfl
  · cases v with
    | str t => exact absurd rfl (hv t)
    | num n => rfl
    | bool b => rfl
    | null => rfl
    | list xs => rfl
    | dict kvs => rfl

/-- C7 witness: a plain string and a number pass through unchanged. -/
theorem c7_witness :
    try_interpolate (fun _ => none) ("hello") = .ok (.str ("hello")) ∧
      visitValue (fun _ => none) (.num 3) = .ok (.num 3) :=
  c7_no_expression_identity (fun _ => none) ("hello") (.num 3) (by decide)
    (fun t h => nomatch h)

/-! ### Lemmas about the deep merge -/

theorem dictGet_dictSet (d : List (String × Value)) (k k' : String) (v : Value) :
    dictGet (dictSet d k v) k' = if k = k' then some v else dictGet d k' := by
  induction d with
  | nil =>
    by_cases h : k = k' <;> simp [dictSet, dictGet, h]
  | cons kv rest ih =>
    obtain ⟨k0, v0⟩ := kv
    by_cases h0 : k0 = k
    · subst h0
      by_cases h1 : k0 = k'
      · subst h1
        simp [dictSet, dictGet]
      · simp [dictSet, dictGet, h1]
    · by_cases h1 : k0 = k'
      · subst h1
        have hkk : ¬(k = k0) := fun he => h0 he.symm
        simp [dictSet, dictGet, h0, hkk]
      · simp [dictSet, dictGet, h0, h1, ih]

theorem dictGet_eq_none (d : List (String × Value)) (k : String)
    (h : k ∉ d.map Prod.fst) : dictGet d k = none := by
  induction d with
  | nil => rfl
  | cons kv rest ih =>
    obtain ⟨k0, v0⟩ := kv
    simp only [List.map_cons, List.mem_cons, not_or] at h
    have hne : ¬(k0 = k) := fun he => h.1 he.symm
    simp [dictGet, hne, ih h.2]

theorem mergeDicts_nil (d1 : List (String × Value)) : mergeDicts d1 [] = d1 := by
  simp [mergeDicts]

theorem mergeDicts_cons (d1 : List (String × Value)) (k : String) (v2 : Value)
    (rest : List (String × Value)) :
    mergeDicts d1 ((k, v2) :: rest) = mergeDicts (mergeStep d1 k v2) rest := by
  cases v2 <;> unfold mergeStep <;>
    (try (cases hget : dictGet d1 k with
          | none => simp [mergeDicts, hget]
          | some v1 => cases v1 <;> simp [mergeDicts, hget]))

/-- C4: merging walks every key of the overlay: on keys where both sides hold
mappings the merge is recursive, on every other overlay key the overlay value
overwrites (sequences included), and keys only in the base keep their base
value. -/
theorem c4_merge_pointwise (d1 d2 : List (String × Value)) (k : String)
    (hnd : (d2.map Prod.fst).Nodup) :
    dictGet (mergeDicts d1 d2) k =
      (match dictGet d2 k, dictGet d1 k with
       | some (Value.dict s2), some (Value.dict s1) => some (.dict (mergeDicts s1 s2))
       | some v2, _ => some v2
       | none, some v1 => some v1
       | none, none => none) := by
  induction d2 generalizing d1 with
  | nil =>
    rw [mergeDicts_nil]
    cases dictGet d1 k <;> simp [dictGet]
  | cons kv rest ih =>
    obtain ⟨k2, v2⟩ := kv
    rw [mergeDicts_cons]
    simp only [List.map_cons, List.nodup_cons] at hnd
    obtain ⟨hk2, hrest⟩ := hnd
    rw [ih (mergeStep d1 k2 v2) hrest]
    by_cases hk : k2 = k
    · subst hk
      have hnone : dictGet rest k2 = none := dictGet_eq_none rest k2 hk2
      have hhead : dictGet ((k2, v2) :: rest) k2 = some v2 := by simp [dictGet]
      rw [hnone, hhead]
      unfold mergeStep
      cases hget : dictGet d1 k2 with
      | none => cases v2 <;> simp [dictGet_dictSet, hget]
      | some v1 => cases v1 <;> cases v2 <;> simp [dictGet_dictSet, hget]
    · have h1 : dictGet ((k2, v2) :: rest) k = dictGet rest k := by simp [dictGet, hk]
      have h2 : dictGet (mergeStep d1 k2 v2) k = dictGet d1 k := by
        unfold mergeStep
        cases hget : dictGet d1 k2 with
        | none => cases v2 <;> simp [dictGet_dictSet, hk]
        | some v1 => cases v1 <;> cases v2 <;> simp [dictGet_dictSet, hk]
      rw [h1, h2]

/-- C4 witness: a non-mapping base value is overwritten by a mapping overlay
value at the same key. -/
theorem c4_witness :
    dictGet (mergeDicts [(("a" : String), Value.num 1)]
      [(("a" : String), Value.dict [(("b" : String), Value.num 2)])]) ("a") =
      some (Value.dict [(("b" : String), Value.num 2)]) := by
  have h := c4_merge_pointwise [(("a" : String), Value.num 1)]
    [(("a" : String), Value.dict [(("b" : String), Value.num 2)])] ("a") (by simp)
  rw [h]
  rfl

/-! ### Lemmas about env_file_name -/

theorem splitOnce_no_dot (s : List Char) (h : ∀ c ∈ s, c ≠ '.') :
    splitOnce ['.'] s = none := by
  induction s with
  | nil => rfl
  | cons c cs ih =>
    have hc : c ≠ '.' := h c (by simp)
    have hpre : ['.'].isPrefixOf (c :: cs) = false := by
      simp [List.isPrefixOf]
      exact fun he => hc he.symm
    unfold splitOnce
    rw [hpre]
    simp only [Bool.false_eq_true, if_false]
    rw [ih (fun x hx => h x (by simp [hx]))]

theorem pySplit_no_dot (s : List Char) (h : ∀ c ∈ s, c ≠ '.') :
    pySplit ['.'] s = [s] := by
  unfold pySplit
  cases hl : s.length with
  | zero => rfl
  | succ n =>
    unfold pySplitGo
    rw [splitOnce_no_dot s h]

/-- C8: the three environment-file naming examples from the specification. -/
theorem c8_env_file_name_examples :
    env_file_name ("/foo/bar.yml") ("prod") = ("bar.prod.yml") ∧
    env_file_name ("/foo/bar.baz.yml") ("prod") = ("bar.prod.baz.yml") ∧
    env_file_name ("/foo/.baz") ("prod") = (".baz.prod") := ⟨rfl, rfl, rfl⟩

/-- C10: when the file name contains no dot, env_file_name drops the final
character of the name and appends a dot and the environment name. -/
theorem c10_no_dot_drops_last_char (p : String) (env : String)
    (h : ∀ c ∈ (pathName p).toList, c ≠ '.') :
    env_file_name p env = String.mk ((pathName p).toList.dropLast ++ '.' :: env.toList) := by
  have hfind : (pathName p).toList.findIdx? (fun c => c == '.') = none := by
    rw [List.findIdx?_eq_none_iff]
    intro x hx
    simp [h x hx]
  have hpf : pyFindDot (pathName p).toList = -1 := by
    unfold pyFindDot
    rw [hfind]
  have hdrop : (pathName p).toList.dropWhile (fun c => c == '.') = (pathName p).toList := by
    cases hc : (pathName p).toList with
    | nil => rfl
    | cons c cs =>
      have : c ≠ '.' := h c (by rw [hc]; simp)
      exact List.dropWhile_cons_of_neg (by simp [this])
  have hews : endsWithDot (pathName p).toList = false := by
    unfold endsWithDot
    cases hrev : (pathName p).toList.reverse with
    | nil => rfl
    | cons c t =>
      have hmem : c ∈ (pathName p).toList := by
        rw [← List.mem_reverse, hrev]
        simp
      have hc : c ≠ '.' := h c hmem
      split <;> simp_all
  have hsuf : pySuffixes (pathName p).toList = [] := by
    unfold pySuffixes
    rw [hews, hdrop, pySplit_no_dot _ h]
    simp
  have e : env_file_name p env = String.mk (pySliceTo (pathName p).toList
      (if pyFindDot (pathName p).toList = 0 then (((pathName p).toList.length : Int))
       else pyFindDot (pathName p).toList) ++ '.' :: env.toList ++
      (pySuffixes (pathName p).toList).flatten) := rfl
  rw [e, hpf, hsuf]
  rw [if_neg (by decide)]
  simp only [List.flatten_nil, List.append_nil]
  unfold pySliceTo
  rw [if_pos (by decide)]
  rw [show ((-(-1 : Int)).toNat) = 1 from rfl]
  rw [← List.dropLast_eq_take]

/-- C10 witness: a dotless file name loses its final character. -/
theorem c10_witness :
    env_file_name ("/foo/config") ("prod") = String.mk
      (("config" : String).toList.dropLast ++ '.' :: ("prod" : String).toList) := by
  have h := c10_no_dot_drops_last_char ("/foo/config") ("prod") (by decide)
  rw [h]
  rfl

/-! ### Lemmas about the interpolation visitor -/

theorem bind_eq_ok {α β : Type} (x : Except InterpError α) (f : α → Except InterpError β)
    (b : β) (h : (x >>= f) = Except.ok b) : ∃ a, x = Except.ok a ∧ f a = Except.ok b := by
  cases x with
  | error e => exact absurd h (fun hh => Except.noConfusion hh)
  | ok a => exact ⟨a, rfl, h⟩

theorem try_interpolate_leaf (env : Env) (s : String) (v : Value)
    (h : try_interpolate env s = .ok v) : IsLeafResult v := by
  unfold try_interpolate at h
  have hmap : ∀ (x : Except InterpError (List Char)) (v' : Value),
      x.map (fun l => Value.str (String.mk l)) = .ok v' → ∃ t, v' = .str t := by
    intro x v' hx
    cases x with
    | error e => exact absurd hx (fun hh => Except.noConfusion hh)
    | ok l => exact ⟨String.mk l, (Except.ok.inj hx).symm⟩
  split at h
  · split at h
    · obtain ⟨t, rfl⟩ := hmap _ _ h
      exact Or.inl ⟨t, rfl⟩
    · split at h
      · have := (Except.ok.inj h)
        subst this
        exact Or.inr (Or.inr rfl)
      · split at h
        · dsimp only at h
          have := (Except.ok.inj h)
          subst this
          right
          left
          refine ⟨_, rfl, ?_⟩
          intro x hx
          simp only [List.mem_map] at hx
          obtain ⟨e, -, rfl⟩ := hx
          exact ⟨_, rfl⟩
        · obtain ⟨t, rfl⟩ := hmap _ _ h
          exact Or.inl ⟨t, rfl⟩
  · obtain ⟨t, rfl⟩ := hmap _ _ h
    exact Or.inl ⟨t, rfl⟩

theorem visitList_forall (env : Env) (xs ys : List Value)
    (IH : ∀ x ∈ xs, ∀ y, visit env x = .ok y → ShapeOk x y)
    (h : visitList env xs = .ok ys) : ShapeOkList xs ys := by
  induction xs generalizing ys with
  | nil =>
    have : ([] : List Value) = ys :=
      Except.ok.inj (show (Except.ok [] : Except InterpError (List Value)) = .ok ys from h)
    subst this
    exact ShapeOkList.nil
  | cons x xs ih =>
    rw [show visitList env (x :: xs) =
        (visit env x >>= fun y => visitList env xs >>= fun ys' => pure (y :: ys')) from rfl] at h
    obtain ⟨y, hy, h2⟩ := bind_eq_ok _ _ _ h
    obtain ⟨ys', hys', h3⟩ := bind_eq_ok _ _ _ h2
    have : y :: ys' = ys := Except.ok.inj h3
    subst this
    exact ShapeOkList.cons (IH x (by simp) y hy)
      (ih ys' (fun a ha z hz => IH a (List.mem_cons_of_mem x ha) z hz) hys')

theorem visitDict_forall (env : Env) (kvs kvs' : List (String × Value))
    (IH : ∀ p ∈ kvs, ∀ y, visit env p.2 = .ok y → ShapeOk p.2 y)
    (h : visitDict env kvs = .ok kvs') : ShapeOkDict kvs kvs' := by
  induction kvs generalizing kvs' with
  | nil =>
    have : ([] : List (String × Value)) = kvs' :=
      Except.ok.inj
        (show (Except.ok [] : Except InterpError (List (String × Value))) = .ok kvs' from h)
    subst this
    exact ShapeOkDict.nil
  | cons kv rest ih =>
    obtain ⟨k, w⟩ := kv
    rw [show visitDict env ((k, w) :: rest) =
        (visit env w >>= fun w' => visitDict env rest >>= fun rest' =>
          pure ((k, w') :: rest')) from rfl] at h
    obtain ⟨w', hw, h2⟩ := bind_eq_ok _ _ _ h
    obtain ⟨rest', hrest', h3⟩ := bind_eq_ok _ _ _ h2
    have : (k, w') :: rest' = kvs' := Except.ok.inj h3
    subst this
    exact ShapeOkDict.cons (IH (k, w) (by simp) w' hw)
      (ih rest' (fun a ha z hz => IH a (List.mem_cons_of_mem (k, w) ha) z hz) hrest')

theorem visit_shape_sized (env : Env) : ∀ (n : Nat) (v v' : Value), sizeOf v ≤ n →
    visit env v = .ok v' → ShapeOk v v' := by
  intro n
  induction n with
  | zero =>
    intro v v' hsz
    exfalso
    cases v <;> simp at hsz
  | succ n ih =>
    intro v v' hsz h
    match v with
    | .str s => exact ShapeOk.str s v' (try_interpolate_leaf env s v' h)
    | .num m => exact (Except.ok.inj h) ▸ ShapeOk.num m
    | .bool b => exact (Except.ok.inj h) ▸ ShapeOk.bool b
    | .null => exact (Except.ok.inj h) ▸ ShapeOk.null
    | .list xs =>
      rw [show visit env (.list xs) =
          (visitList env xs >>= fun ys => pure (.list ys)) from rfl] at h
      obtain ⟨ys, hys, hpure⟩ := bind_eq_ok _ _ _ h
      have : Value.list ys = v' := Except.ok.inj hpure
      subst this
      refine ShapeOk.list (visitList_forall env xs ys ?_ hys)
      intro x hx y hvy
      have h1 : sizeOf x < sizeOf xs := List.sizeOf_lt_of_mem hx
      have h2 : sizeOf (Value.list xs) ≤ n + 1 := hsz
      have h3 : sizeOf (Value.list xs) = 1 + sizeOf xs := by simp
      exact ih x y (by omega) hvy
    | .dict kvs =>
      rw [show visit env (.dict kvs) =
          (visitDict env kvs >>= fun kvs' => pure (.dict kvs')) from rfl] at h
      obtain ⟨kvs', hkvs, hpure⟩ := bind_eq_ok _ _ _ h
      have : Value.dict kvs' = v' := Except.ok.inj hpure
      subst this
      refine ShapeOk.dict (visitDict_forall env kvs kvs' ?_ hkvs)
      intro p hp y hvy
      have h1 : sizeOf p < sizeOf kvs := List.sizeOf_lt_of_mem hp
      have h2 : sizeOf p.2 < sizeOf p := by
        obtain ⟨k, w⟩ := p
        simp
      have h3 : sizeOf (Value.dict kvs) ≤ n + 1 := hsz
      have h4 : sizeOf (Value.dict kvs) = 1 + sizeOf kvs := by simp
      exact ih p.2 y (by omega) hvy

/-- C9: the interpolation visitor preserves the shape of the tree: mappings
keep exactly their keys, sequences keep their length, non-string leaves are
unchanged, and string leaves are replaced by leaf evaluation results (a
string, a sequence of strings, or null). -/
theorem c9_visit_shape (env : Env) (v v' : Value) (h : visit env v = .ok v') :
    ShapeOk v v' :=
  visit_shape_sized env (sizeOf v) v v' le_rfl h

/-- C9 witness: visiting a concrete two-key mapping preserves its keys and
the length of its nested sequence, replacing only the one expression leaf. -/
theorem c9_witness : ShapeOk
    (.dict [(("a" : String), .str ("$\x7bFOO[,]\x7d")),
            (("b" : String), .list [.num 1, .str ("x")])])
    (.dict [(("a" : String), .list [.str ("p"), .str ("q")]),
            (("b" : String), .list [.num 1, .str ("x")])]) :=
  c9_visit_shape (fun n => if n = ("FOO") then some ("p,q") else none) _ _ rfl

end Confspec
